import Mathlib

/-!
Shallow embedding of `ReversibleKeyMap` (src/ts/src/ReversibleKeyMap.ts).

A JavaScript `Map` is modelled as an insertion-ordered association list
`List (K × V)` with unique keys: `Map.prototype.set` updates an existing
entry in place (keeping its position) or appends a fresh one, `get`
returns an `Option`, `delete` removes the entry, and iteration follows
list order, exactly as JS `Map` iteration follows insertion order.

The class field `map : Map<K1|K2, Map<K1|K2, T>>` becomes
`List (K × List (K × V))`; the two key domains `K1`/`K2` are a single
type `K` since the source erases the distinction at runtime.

In-place mutation of an inner map (`this.map.get(k1).set(k2, value)`)
is modelled by writing the updated inner list back at the same key,
which preserves the entry's position.  Methods where the source can
throw a `TypeError` (`delete`, and `deleteAllFrom` which calls it)
return `Option`, with `none` modelling the thrown exception.
-/

namespace RevKeyMap

variable {K V : Type} [DecidableEq K]

/-- Model of `Map.prototype.get`: value of the first entry with the given
key, or `none` when absent. -/
def mapGet : List (K × V) → K → Option V
  | [], _ => none
  | (a, v) :: rest, k => if a = k then some v else mapGet rest k

/-- Model of `Map.prototype.has`. -/
def mapHas (l : List (K × V)) (k : K) : Bool :=
  (mapGet l k).isSome

/-- Model of `Map.prototype.set`: update the existing entry in place
(keeping its position, as JS `Map` does) or append a fresh entry. -/
def mapSet : List (K × V) → K → V → List (K × V)
  | [], k, v => [(k, v)]
  | (a, w) :: rest, k, v =>
      if a = k then (a, v) :: rest else (a, w) :: mapSet rest k v

/-- Model of `Map.prototype.delete`: remove the entry with the given key. -/
def mapDel : List (K × V) → K → List (K × V)
  | [], _ => []
  | (a, w) :: rest, k => if a = k then rest else (a, w) :: mapDel rest k

/-- Keys of a modelled JS map, in iteration order. -/
def keysOf (l : List (K × V)) : List K := l.map Prod.fst

/-- The `ReversibleKeyMap` class: its single field is the doubly-indexed
`map : Map<K1 | K2, Map<K1 | K2, T>>`. -/
structure ReversibleKeyMap (K V : Type) where
  map : List (K × List (K × V))

/-- A fresh instance (`new ReversibleKeyMap()` with no iterable). -/
def ReversibleKeyMap.empty : ReversibleKeyMap K V := ⟨[]⟩

/-- Method `getAllFrom`: `return this.map.get(k1);` (possibly `undefined`). -/
def ReversibleKeyMap.getAllFrom (m : ReversibleKeyMap K V) (k1 : K) :
    Option (List (K × V)) :=
  mapGet m.map k1

/-- The lookup pattern of `get`:
`prim.has(x) ? prim.get(x).get(b) : undefined`. -/
def getIn (prim : List (K × List (K × V))) (x b : K) : Option V :=
  match mapGet prim x with
  | some inner => mapGet inner b
  | none => none

/-- Method `get`:
`return this.map.has(k1) ? this.map.get(k1).get(k2) : undefined;`. -/
def ReversibleKeyMap.get (m : ReversibleKeyMap K V) (k1 k2 : K) : Option V :=
  getIn m.map k1 k2

/-- One phase of `set`:
`if (this.map.has(x)) { this.map.get(x).set(y, value); } else { this.map.set(x, new Map([[y, value]])); }`,
with the in-place mutation of the secondary map written back at `x`. -/
def setPhase (prim : List (K × List (K × V))) (x y : K) (v : V) :
    List (K × List (K × V)) :=
  match mapGet prim x with
  | some inner => mapSet prim x (mapSet inner y v)
  | none => mapSet prim x [(y, v)]

/-- Method `set`: the `k1`-directed phase followed by the `k2`-directed
phase, then `return this`. -/
def ReversibleKeyMap.set (m : ReversibleKeyMap K V) (k1 k2 : K) (v : V) :
    ReversibleKeyMap K V :=
  ⟨setPhase (setPhase m.map k1 k2 v) k2 k1 v⟩

/-- Method `has`: `return this.map.has(k1);`. -/
def ReversibleKeyMap.has (m : ReversibleKeyMap K V) (k1 : K) : Bool :=
  mapHas m.map k1

/-- Method `hasCouple`:
`if (this.map.has(k1)) return this.map.get(k1).has(k2); return false;`. -/
def ReversibleKeyMap.hasCouple (m : ReversibleKeyMap K V) (k1 k2 : K) : Bool :=
  match mapGet m.map k1 with
  | some inner => mapHas inner k2
  | none => false

/-- Method `clear`: `this.map.clear();`. -/
def ReversibleKeyMap.clear (_m : ReversibleKeyMap K V) : ReversibleKeyMap K V :=
  ⟨[]⟩

/-- The write-back step of `delete`: in the source, `k1map.delete(k2)`
mutates the secondary map in place and
`if (k1map.size === 0) { this.map.delete(k1); }` drops the top-level
entry when it became empty.  Functionally: store the shrunk inner list
back at its key, unless it is empty, in which case remove the entry. -/
def writeBack (prim : List (K × List (K × V))) (k : K)
    (inner : List (K × V)) : List (K × List (K × V)) :=
  if inner.length = 0 then mapDel prim k else mapSet prim k inner

/-- Method `delete`.  After the first phase may have removed the
top-level entry of `k1`, the source evaluates `this.map.get(k2)` and
calls `.delete` on it with no `undefined` check; when `k1 = k2` and the
secondary map held only the self-pair this dereferences `undefined` and
throws a `TypeError`, modelled by `none`. -/
def ReversibleKeyMap.delete (m : ReversibleKeyMap K V) (k1 k2 : K) :
    Option (ReversibleKeyMap K V) :=
  if m.hasCouple k1 k2 then
    match mapGet m.map k1 with
    | none => none
    | some k1map =>
      let map1 := writeBack m.map k1 (mapDel k1map k2)
      match mapGet map1 k2 with
      | none => none
      | some k2map => some ⟨writeBack map1 k2 (mapDel k2map k1)⟩
  else some m

/-- The loop of `deleteAllFrom`, one `this.delete(k1, key)` call per
co-key.  The source iterates the live secondary map of `k1`, but each
`delete` removes exactly the co-key just visited from that map (and JS
`Map` iterators tolerate deletion of the current entry), so the loop
visits precisely the keys present when it started, in order. -/
def delAllGo (k1 : K) :
    ReversibleKeyMap K V → List K → Option (ReversibleKeyMap K V)
  | m, [] => some m
  | m, key :: rest =>
    match m.delete k1 key with
    | none => none
    | some m2 => delAllGo k1 m2 rest

/-- Method `deleteAllFrom`:
`if (this.has(k1)) { for (const [key, ] of this.getAllFrom(k1)) { this.delete(k1, key); } }`. -/
def ReversibleKeyMap.deleteAllFrom (m : ReversibleKeyMap K V) (k1 : K) :
    Option (ReversibleKeyMap K V) :=
  if m.has k1 then
    match m.getAllFrom k1 with
    | some inner => delAllGo k1 m (keysOf inner)
    | none => some m
  else some m

/-- Model of `Set.prototype.add` on the insertion-ordered sets used by
the `entries` generator. -/
def setAdd (s : List K) (k : K) : List K :=
  if k ∈ s then s else s ++ [k]

/-- The `if (!couples.has(k)) { couples.set(k, new Set); }` statement of
the `entries` generator. -/
def ensureKey (c : List (K × List K)) (k : K) : List (K × List K) :=
  if mapHas c k then c else mapSet c k []

/-- The `couples.get(x).add(y)` statement of the `entries` generator,
with the in-place `Set` mutation written back at `x`. -/
def setRecord (c : List (K × List K)) (x y : K) : List (K × List K) :=
  mapSet c x (setAdd ((mapGet c x).getD []) y)

/-- Inner loop of the `entries` generator over one secondary map: for
each `(key2, value)`, create `couples.get(key2)` if missing, yield
`[[key1, key2], value]` unless `key2` is already in `couples.get(key1)`,
then record the pair in both directions (`k1set.add(key2)` followed by
`couples.get(key2).add(key1)`).  Returns the yielded items and the
updated `couples` side-table. -/
def entriesInner (key1 : K) :
    List (K × V) → List (K × List K) →
      List ((K × K) × V) × List (K × List K)
  | [], couples => ([], couples)
  | (key2, value) :: rest, couples =>
    let c1 := ensureKey couples key2
    let ys : List ((K × K) × V) :=
      if key2 ∈ (mapGet c1 key1).getD [] then [] else [((key1, key2), value)]
    let c3 := setRecord (setRecord c1 key1 key2) key2 key1
    let r := entriesInner key1 rest c3
    (ys ++ r.1, r.2)

/-- Outer loop of the `entries` generator over the primary index:
ensure `couples.get(key1)` exists, then run the inner loop. -/
def entriesOuter :
    List (K × List (K × V)) → List (K × List K) → List ((K × K) × V)
  | [], _ => []
  | (key1, inner) :: rest, couples =>
    let c1 := ensureKey couples key1
    let r := entriesInner key1 inner c1
    r.1 ++ entriesOuter rest r.2

/-- Method `entries`: the full drain of the generator, starting from a
fresh `couples` table. -/
def ReversibleKeyMap.entries (m : ReversibleKeyMap K V) :
    List ((K × K) × V) :=
  entriesOuter m.map []

/-- Method `keysCouples`: the key pair of every yielded entry. -/
def ReversibleKeyMap.keysCouples (m : ReversibleKeyMap K V) : List (K × K) :=
  m.entries.map Prod.fst

/-- Method `values`: the value of every yielded entry. -/
def ReversibleKeyMap.values (m : ReversibleKeyMap K V) : List V :=
  m.entries.map Prod.snd

/-- Method `keys`: `return this.map.keys();`. -/
def ReversibleKeyMap.keys (m : ReversibleKeyMap K V) : List K :=
  keysOf m.map

/-- Accessor `size`: `return this.map.size;`. -/
def ReversibleKeyMap.size (m : ReversibleKeyMap K V) : Nat :=
  m.map.length

/-- Accessor `count`: `return [...this.values()].length;`. -/
def ReversibleKeyMap.count (m : ReversibleKeyMap K V) : Nat :=
  m.values.length

/-- States reachable from a fresh instance through the public mutating
operations.  The iterable constructor is a sequence of `set` calls and
is therefore covered by `empty` and `set`.  For the fallible operations
only completed (non-throwing) runs produce a state. -/
inductive Reachable : ReversibleKeyMap K V → Prop where
  | empty : Reachable ReversibleKeyMap.empty
  | set {m : ReversibleKeyMap K V} (k1 k2 : K) (v : V) :
      Reachable m → Reachable (m.set k1 k2 v)
  | clear {m : ReversibleKeyMap K V} :
      Reachable m → Reachable m.clear
  | del {m m' : ReversibleKeyMap K V} (k1 k2 : K) :
      Reachable m → m.delete k1 k2 = some m' → Reachable m'
  | delAll {m m' : ReversibleKeyMap K V} (k1 : K) :
      Reachable m → m.deleteAllFrom k1 = some m' → Reachable m'

/-- Well-formedness of a state: the primary index and every secondary
map have unique keys (automatic for JS `Map`s), lookups are symmetric,
and no top-level entry has an empty secondary map. -/
def Inv (m : ReversibleKeyMap K V) : Prop :=
  (keysOf m.map).Nodup ∧
  (∀ p ∈ m.map, (keysOf p.2).Nodup) ∧
  (∀ a b, m.get a b = m.get b a) ∧
  (∀ p ∈ m.map, p.2 ≠ [])

/-- Whether a yielded entry carries the unordered key pair `{a, b}`. -/
def pairMatch (a b : K) (e : (K × K) × V) : Bool :=
  (decide (e.1.1 = a) && decide (e.1.2 = b)) ||
    (decide (e.1.1 = b) && decide (e.1.2 = a))

/-- The pair `{x, y}` is recorded in the `couples` side-table of the
`entries` generator (reading from `x`). -/
def seenIn (c : List (K × List K)) (x y : K) : Prop :=
  y ∈ (mapGet c x).getD []

instance (c : List (K × List K)) (x y : K) : Decidable (seenIn c x y) :=
  inferInstanceAs (Decidable (y ∈ (mapGet c x).getD []))

/-- The `couples` side-table is symmetric. -/
def SymSeen (c : List (K × List K)) : Prop :=
  ∀ x y, seenIn c x y → seenIn c y x

/-- The unordered pair `{a, b}` occurs in one secondary map traversed
under top-level key `key1`. -/
def occInner (key1 : K) (inner : List (K × V)) (a b : K) : Prop :=
  (key1 = a ∧ b ∈ keysOf inner) ∨ (key1 = b ∧ a ∈ keysOf inner)

instance (key1 : K) (inner : List (K × V)) (a b : K) :
    Decidable (occInner key1 inner a b) :=
  inferInstanceAs (Decidable (_ ∨ _))

/-- The unordered pair `{a, b}` occurs somewhere in a primary index. -/
def occAll (l : List (K × List (K × V))) (a b : K) : Prop :=
  ∃ p ∈ l, (p.1 = a ∧ b ∈ keysOf p.2) ∨ (p.1 = b ∧ a ∈ keysOf p.2)

instance (l : List (K × List (K × V))) (a b : K) :
    Decidable (occAll l a b) :=
  inferInstanceAs (Decidable (∃ p ∈ l, _))

/-- Two primary indexes with the same top-level keys in the same order
and, entrywise, the same secondary keys in the same order (only the
stored values may differ). -/
def ShapeEq (l1 l2 : List (K × List (K × V))) : Prop :=
  List.Forall₂ (fun p q => p.1 = q.1 ∧ keysOf p.2 = keysOf q.2) l1 l2

/-- The state holding the six pairs of the complete graph over the keys
1–4, built from a fresh map by six `set` calls. -/
def mK4 : ReversibleKeyMap Nat Nat :=
  ((((((ReversibleKeyMap.empty).set 1 2 0).set 1 3 0).set 1 4 0).set
    2 3 0).set 2 4 0).set 3 4 0

/-! ### Basic lemmas about the JS `Map` model -/

theorem mapGet_mapSet_self (l : List (K × V)) (k : K) (v : V) :
    mapGet (mapSet l k v) k = some v := by
  induction l with
  | nil => simp [mapSet, mapGet]
  | cons p rest ih =>
    obtain ⟨a, w⟩ := p
    by_cases h : a = k
    · simp [mapSet, mapGet, h]
    · simp [mapSet, mapGet, h, ih]

omit [DecidableEq K] in
theorem keysOf_nil : keysOf ([] : List (K × V)) = [] := rfl

omit [DecidableEq K] in
theorem keysOf_cons (a : K) (w : V) (rest : List (K × V)) :
    keysOf ((a, w) :: rest) = a :: keysOf rest := rfl

theorem mapGet_mapSet_ne (l : List (K × V)) (k k' : K) (v : V)
    (h : k' ≠ k) : mapGet (mapSet l k v) k' = mapGet l k' := by
  induction l with
  | nil => simp [mapSet, mapGet, Ne.symm h]
  | cons p rest ih =>
    obtain ⟨a, w⟩ := p
    by_cases ha : a = k
    · subst ha
      simp [mapSet, mapGet, Ne.symm h]
    · simp [mapSet, mapGet, ha, ih]

theorem mapGet_mapDel_ne (l : List (K × V)) (k k' : K)
    (h : k' ≠ k) : mapGet (mapDel l k) k' = mapGet l k' := by
  induction l with
  | nil => simp [mapDel]
  | cons p rest ih =>
    obtain ⟨a, w⟩ := p
    by_cases ha : a = k
    · subst ha
      simp [mapDel, mapGet, Ne.symm h]
    · simp [mapDel, mapGet, ha, ih]

theorem mapGet_isSome_iff (l : List (K × V)) (k : K) :
    (mapGet l k).isSome = true ↔ k ∈ keysOf l := by
  induction l with
  | nil => simp [mapGet, keysOf]
  | cons p rest ih =>
    obtain ⟨a, w⟩ := p
    by_cases ha : a = k
    · simp [mapGet, keysOf, ha]
    · simp [mapGet, keysOf, ha, Ne.symm ha, ih]

theorem mapGet_eq_none_iff (l : List (K × V)) (k : K) :
    mapGet l k = none ↔ k ∉ keysOf l := by
  rw [← mapGet_isSome_iff]
  cases mapGet l k <;> simp

theorem mapGet_mem (l : List (K × V)) (k : K) (v : V)
    (h : mapGet l k = some v) : (k, v) ∈ l := by
  induction l with
  | nil => simp [mapGet] at h
  | cons p rest ih =>
    obtain ⟨a, w⟩ := p
    by_cases ha : a = k
    · subst ha
      simp [mapGet] at h
      simp [h]
    · simp [mapGet, ha] at h
      exact List.mem_cons_of_mem _ (ih h)

theorem mem_mapGet (l : List (K × V)) (k : K) (v : V)
    (hnd : (keysOf l).Nodup) (h : (k, v) ∈ l) : mapGet l k = some v := by
  induction l with
  | nil => simp at h
  | cons p rest ih =>
    obtain ⟨a, w⟩ := p
    rw [keysOf_cons, List.nodup_cons] at hnd
    rcases List.mem_cons.1 h with h1 | h1
    · cases h1
      simp [mapGet]
    · have hak : a ≠ k := by
        rintro rfl
        exact hnd.1 (by simpa [keysOf] using List.mem_map_of_mem Prod.fst h1)
      simp [mapGet, hak]
      exact ih hnd.2 h1

theorem keysOf_mapSet_of_mem (l : List (K × V)) (k : K) (v : V)
    (h : k ∈ keysOf l) : keysOf (mapSet l k v) = keysOf l := by
  induction l with
  | nil => simp [keysOf] at h
  | cons p rest ih =>
    obtain ⟨a, w⟩ := p
    by_cases ha : a = k
    · simp [mapSet, keysOf, ha]
    · simp only [keysOf, List.map_cons, List.mem_cons] at h
      rcases h with h1 | h1
      · exact absurd h1.symm ha
      · simpa [mapSet, keysOf, ha] using ih h1

theorem keysOf_mapSet_of_not_mem (l : List (K × V)) (k : K) (v : V)
    (h : k ∉ keysOf l) : keysOf (mapSet l k v) = keysOf l ++ [k] := by
  induction l with
  | nil => simp [mapSet, keysOf]
  | cons p rest ih =>
    obtain ⟨a, w⟩ := p
    simp only [keysOf, List.map_cons, List.mem_cons] at h
    push_neg at h
    simpa [mapSet, keysOf, Ne.symm h.1] using ih h.2

theorem nodup_keysOf_mapSet (l : List (K × V)) (k : K) (v : V)
    (h : (keysOf l).Nodup) : (keysOf (mapSet l k v)).Nodup := by
  by_cases hm : k ∈ keysOf l
  · rwa [keysOf_mapSet_of_mem l k v hm]
  · rw [keysOf_mapSet_of_not_mem l k v hm]
    simpa [List.nodup_append] using ⟨h, hm⟩

theorem mem_mapSet (l : List (K × V)) (k : K) (v : V) (p : K × V)
    (h : p ∈ mapSet l k v) : p ∈ l ∨ p = (k, v) := by
  induction l with
  | nil => simpa [mapSet] using h
  | cons q rest ih =>
    obtain ⟨a, w⟩ := q
    by_cases ha : a = k
    · subst ha
      rcases List.mem_cons.1 (by simpa [mapSet] using h) with h1 | h1
      · exact Or.inr h1
      · exact Or.inl (List.mem_cons_of_mem _ h1)
    · rcases List.mem_cons.1 (by simpa [mapSet, ha] using h) with h1 | h1
      · exact Or.inl (by simp [h1])
      · rcases ih h1 with h2 | h2
        · exact Or.inl (List.mem_cons_of_mem _ h2)
        · exact Or.inr h2

theorem mem_mapDel (l : List (K × V)) (k : K) (p : K × V)
    (h : p ∈ mapDel l k) : p ∈ l := by
  induction l with
  | nil => simp [mapDel] at h
  | cons q rest ih =>
    obtain ⟨a, w⟩ := q
    by_cases ha : a = k
    · exact List.mem_cons_of_mem _ (by simpa [mapDel, ha] using h)
    · rcases List.mem_cons.1 (by simpa [mapDel, ha] using h) with h1 | h1
      · exact (by simp [h1])
      · exact List.mem_cons_of_mem _ (ih h1)

theorem keysOf_mapDel_subset (l : List (K × V)) (k k' : K)
    (h : k' ∈ keysOf (mapDel l k)) : k' ∈ keysOf l := by
  simp only [keysOf, List.mem_map] at h ⊢
  obtain ⟨p, hp, hk⟩ := h
  exact ⟨p, mem_mapDel l k p hp, hk⟩

theorem nodup_keysOf_mapDel (l : List (K × V)) (k : K)
    (h : (keysOf l).Nodup) : (keysOf (mapDel l k)).Nodup := by
  induction l with
  | nil => simp [mapDel, keysOf]
  | cons q rest ih =>
    obtain ⟨a, w⟩ := q
    simp only [keysOf, List.map_cons, List.nodup_cons] at h
    by_cases ha : a = k
    · simpa [mapDel, ha] using h.2
    · simp only [mapDel, if_neg ha, keysOf, List.map_cons, List.nodup_cons]
      exact ⟨fun hm => h.1 (keysOf_mapDel_subset rest k a hm), ih h.2⟩

theorem mapGet_mapDel_self (l : List (K × V)) (k : K)
    (h : (keysOf l).Nodup) : mapGet (mapDel l k) k = none := by
  induction l with
  | nil => simp [mapDel, mapGet]
  | cons q rest ih =>
    obtain ⟨a, w⟩ := q
    rw [keysOf_cons, List.nodup_cons] at h
    by_cases ha : a = k
    · subst ha
      rw [mapGet_eq_none_iff]
      simpa [mapDel] using h.1
    · simpa [mapDel, mapGet, ha] using ih h.2

theorem mapDel_of_not_mem (l : List (K × V)) (k : K)
    (h : k ∉ keysOf l) : mapDel l k = l := by
  induction l with
  | nil => simp [mapDel]
  | cons q rest ih =>
    obtain ⟨a, w⟩ := q
    rw [keysOf_cons, List.mem_cons] at h
    push_neg at h
    simp [mapDel, Ne.symm h.1, ih h.2]

theorem mapDel_eq_nil (l : List (K × V)) (k : K)
    (h : mapDel l k = []) : l = [] ∨ ∃ v, l = [(k, v)] := by
  induction l with
  | nil => exact Or.inl rfl
  | cons q rest ih =>
    obtain ⟨a, w⟩ := q
    by_cases ha : a = k
    · subst ha
      simp [mapDel] at h
      exact Or.inr ⟨w, by simp [h]⟩
    · simp [mapDel, ha] at h

theorem mapSet_ne_nil (l : List (K × V)) (k : K) (v : V) :
    mapSet l k v ≠ [] := by
  cases l with
  | nil => simp [mapSet]
  | cons q rest =>
    obtain ⟨a, w⟩ := q
    by_cases ha : a = k <;> simp [mapSet, ha]

/-! ### Characterization of `set` -/

theorem mapGet_setPhase_ne (prim : List (K × List (K × V))) (x y c : K)
    (v : V) (hc : c ≠ x) : mapGet (setPhase prim x y v) c = mapGet prim c := by
  unfold setPhase
  cases mapGet prim x <;> exact mapGet_mapSet_ne _ _ _ _ hc

theorem getIn_setPhase_ne (prim : List (K × List (K × V))) (x y c b : K)
    (v : V) (hc : c ≠ x) :
    getIn (setPhase prim x y v) c b = getIn prim c b := by
  unfold getIn
  rw [mapGet_setPhase_ne prim x y c v hc]

theorem getIn_setPhase_self (prim : List (K × List (K × V))) (x y b : K)
    (v : V) :
    getIn (setPhase prim x y v) x b =
      if b = y then some v else getIn prim x b := by
  unfold setPhase getIn
  cases hp : mapGet prim x with
  | some inn =>
    rw [mapGet_mapSet_self]
    by_cases hb : b = y
    · subst hb
      simp [mapGet_mapSet_self]
    · simp [hb, mapGet_mapSet_ne _ _ _ _ hb]
  | none =>
    rw [mapGet_mapSet_self]
    by_cases hb : b = y
    · simp [mapGet, hb]
    · simp [mapGet, hb, Ne.symm hb]

/-- Full behaviour of `get` after a `set`: the unordered pair `{k1, k2}`
now maps to `v` in both reading orders, every other pair is untouched. -/
theorem get_set (m : ReversibleKeyMap K V) (k1 k2 a b : K) (v : V) :
    (m.set k1 k2 v).get a b =
      if (a = k1 ∧ b = k2) ∨ (a = k2 ∧ b = k1) then some v
      else m.get a b := by
  show getIn (setPhase (setPhase m.map k1 k2 v) k2 k1 v) a b = _
  by_cases ha2 : a = k2
  · subst ha2
    rw [getIn_setPhase_self]
    by_cases hb1 : b = k1
    · simp [hb1]
    · rw [if_neg hb1]
      by_cases h21 : a = k1
      · subst h21
        rw [getIn_setPhase_self, if_neg hb1]
        rw [if_neg (by rintro (⟨_, h2⟩ | ⟨_, h2⟩) <;> exact hb1 h2)]
        rfl
      · rw [getIn_setPhase_ne _ _ _ _ _ _ h21]
        rw [if_neg (by rintro (⟨h1, _⟩ | ⟨_, h2⟩); exacts [h21 h1, hb1 h2])]
        rfl
  · rw [getIn_setPhase_ne _ _ _ _ _ _ ha2]
    by_cases ha1 : a = k1
    · subst ha1
      rw [getIn_setPhase_self]
      by_cases hb2 : b = k2
      · simp [hb2]
      · rw [if_neg hb2]
        rw [if_neg (by rintro (⟨_, h2⟩ | ⟨h1, _⟩); exacts [hb2 h2, ha2 h1])]
        rfl
    · rw [getIn_setPhase_ne _ _ _ _ _ _ ha1]
      rw [if_neg (by rintro (⟨h1, _⟩ | ⟨h1, _⟩); exacts [ha1 h1, ha2 h1])]
      rfl

theorem hasCouple_eq_isSome_get (m : ReversibleKeyMap K V) (a b : K) :
    m.hasCouple a b = (m.get a b).isSome := by
  show _ = (getIn m.map a b).isSome
  unfold ReversibleKeyMap.hasCouple getIn mapHas
  cases mapGet m.map a <;> rfl

/-! ### The structural invariant of reachable states -/

theorem mem_setPhase (prim : List (K × List (K × V))) (x y : K) (v : V)
    (p : K × List (K × V)) (h : p ∈ setPhase prim x y v) :
    p ∈ prim ∨
      (∃ inn, mapGet prim x = some inn ∧ p = (x, mapSet inn y v)) ∨
      p = (x, [(y, v)]) := by
  unfold setPhase at h
  cases hp : mapGet prim x with
  | some inn =>
    rw [hp] at h
    rcases mem_mapSet _ _ _ _ h with h1 | h1
    · exact Or.inl h1
    · exact Or.inr (Or.inl ⟨inn, rfl, h1⟩)
  | none =>
    rw [hp] at h
    rcases mem_mapSet _ _ _ _ h with h1 | h1
    · exact Or.inl h1
    · exact Or.inr (Or.inr h1)

theorem nodup_keysOf_setPhase (prim : List (K × List (K × V))) (x y : K)
    (v : V) (h : (keysOf prim).Nodup) :
    (keysOf (setPhase prim x y v)).Nodup := by
  unfold setPhase
  cases mapGet prim x <;> exact nodup_keysOf_mapSet _ _ _ h

theorem innerNodup_setPhase (prim : List (K × List (K × V))) (x y : K)
    (v : V) (h : ∀ p ∈ prim, (keysOf p.2).Nodup) :
    ∀ p ∈ setPhase prim x y v, (keysOf p.2).Nodup := by
  intro p hp
  rcases mem_setPhase _ _ _ _ _ hp with h1 | ⟨inn, hg, h1⟩ | h1
  · exact h p h1
  · subst h1
    exact nodup_keysOf_mapSet _ _ _ (h (x, inn) (mapGet_mem _ _ _ hg))
  · subst h1
    simp [keysOf]

theorem innerNeNil_setPhase (prim : List (K × List (K × V))) (x y : K)
    (v : V) (h : ∀ p ∈ prim, p.2 ≠ []) :
    ∀ p ∈ setPhase prim x y v, p.2 ≠ [] := by
  intro p hp
  rcases mem_setPhase _ _ _ _ _ hp with h1 | ⟨inn, _, h1⟩ | h1
  · exact h p h1
  · subst h1
    exact mapSet_ne_nil _ _ _
  · subst h1
    simp

theorem inv_set (m : ReversibleKeyMap K V) (k1 k2 : K) (v : V)
    (h : Inv m) : Inv (m.set k1 k2 v) := by
  obtain ⟨hnd, hinn, hsym, hne⟩ := h
  refine ⟨?_, ?_, ?_, ?_⟩
  · exact nodup_keysOf_setPhase _ _ _ _ (nodup_keysOf_setPhase _ _ _ _ hnd)
  · exact innerNodup_setPhase _ _ _ _ (innerNodup_setPhase _ _ _ _ hinn)
  · intro a b
    rw [get_set, get_set]
    by_cases hc : (a = k1 ∧ b = k2) ∨ (a = k2 ∧ b = k1)
    · rw [if_pos hc, if_pos (by tauto)]
    · rw [if_neg hc, if_neg (by tauto), hsym a b]
  · exact innerNeNil_setPhase _ _ _ _ (innerNeNil_setPhase _ _ _ _ hne)

theorem inv_empty : Inv (ReversibleKeyMap.empty : ReversibleKeyMap K V) := by
  refine ⟨by simp [ReversibleKeyMap.empty, keysOf], by simp [ReversibleKeyMap.empty], ?_,
    by simp [ReversibleKeyMap.empty]⟩
  intro a b
  rfl

theorem inv_clear (m : ReversibleKeyMap K V) : Inv m.clear := by
  refine ⟨by simp [ReversibleKeyMap.clear, keysOf], by simp [ReversibleKeyMap.clear], ?_,
    by simp [ReversibleKeyMap.clear]⟩
  intro a b
  rfl

/-! ### Characterization of `delete` -/

theorem mapGet_writeBack_ne (prim : List (K × List (K × V))) (x c : K)
    (inner : List (K × V)) (hc : c ≠ x) :
    mapGet (writeBack prim x inner) c = mapGet prim c := by
  unfold writeBack
  split
  · exact mapGet_mapDel_ne _ _ _ hc
  · exact mapGet_mapSet_ne _ _ _ _ hc

theorem mapGet_writeBack_self (prim : List (K × List (K × V))) (x : K)
    (inner : List (K × V)) (hnd : (keysOf prim).Nodup) :
    mapGet (writeBack prim x inner) x =
      if inner.length = 0 then none else some inner := by
  unfold writeBack
  split
  · exact mapGet_mapDel_self _ _ hnd
  · exact mapGet_mapSet_self _ _ _

theorem nodup_keysOf_writeBack (prim : List (K × List (K × V))) (x : K)
    (inner : List (K × V)) (hnd : (keysOf prim).Nodup) :
    (keysOf (writeBack prim x inner)).Nodup := by
  unfold writeBack
  split
  · exact nodup_keysOf_mapDel _ _ hnd
  · exact nodup_keysOf_mapSet _ _ _ hnd

theorem mem_writeBack (prim : List (K × List (K × V))) (x : K)
    (inner : List (K × V)) (p : K × List (K × V))
    (h : p ∈ writeBack prim x inner) :
    p ∈ prim ∨ (p = (x, inner) ∧ inner ≠ []) := by
  unfold writeBack at h
  split at h
  · exact Or.inl (mem_mapDel _ _ _ h)
  · rcases mem_mapSet _ _ _ _ h with h1 | h1
    · exact Or.inl h1
    · exact Or.inr ⟨h1, by simpa [List.length_eq_zero] using (by assumption : ¬inner.length = 0)⟩

/-- Anatomy of a completed `delete` call: either the couple was absent
and the state is unchanged, or both write-back phases ran. -/
theorem delete_some_shape (m m' : ReversibleKeyMap K V) (k1 k2 : K)
    (h : m.delete k1 k2 = some m') :
    (m' = m ∧ m.hasCouple k1 k2 = false) ∨
      (∃ k1map k2map,
        mapGet m.map k1 = some k1map ∧
        mapGet (writeBack m.map k1 (mapDel k1map k2)) k2 = some k2map ∧
        m' = ⟨writeBack (writeBack m.map k1 (mapDel k1map k2)) k2
                (mapDel k2map k1)⟩ ∧
        m.hasCouple k1 k2 = true) := by
  unfold ReversibleKeyMap.delete at h
  cases hhc : m.hasCouple k1 k2 with
  | false =>
    rw [hhc] at h
    simp at h
    exact Or.inl ⟨h.symm, rfl⟩
  | true =>
    rw [hhc] at h
    simp only [if_true] at h
    cases hk1 : mapGet m.map k1 with
    | none => rw [hk1] at h; simp at h
    | some k1map =>
      rw [hk1] at h
      simp only at h
      cases hk2 : mapGet (writeBack m.map k1 (mapDel k1map k2)) k2 with
      | none => rw [hk2] at h; simp at h
      | some k2map =>
        rw [hk2] at h
        simp only [Option.some.injEq] at h
        exact Or.inr ⟨k1map, k2map, rfl, hk2, h.symm, rfl⟩

theorem getIn_writeBack_ne (prim : List (K × List (K × V))) (x c b : K)
    (inner : List (K × V)) (hc : c ≠ x) :
    getIn (writeBack prim x inner) c b = getIn prim c b := by
  unfold getIn
  rw [mapGet_writeBack_ne _ _ _ _ hc]

theorem getIn_writeBack_self (prim : List (K × List (K × V))) (x b : K)
    (inner : List (K × V)) (hnd : (keysOf prim).Nodup) :
    getIn (writeBack prim x inner) x b =
      if inner.length = 0 then none else mapGet inner b := by
  unfold getIn
  rw [mapGet_writeBack_self _ _ _ hnd]
  by_cases hl : inner.length = 0
  · simp [hl]
  · simp [hl]

theorem getIn_writeBack_mapDel_self (prim : List (K × List (K × V)))
    (x y b : K) (inner : List (K × V)) (hnd : (keysOf prim).Nodup)
    (hb : b ≠ y) :
    getIn (writeBack prim x (mapDel inner y)) x b = mapGet inner b := by
  rw [getIn_writeBack_self _ _ _ _ hnd]
  split
  · rcases mapDel_eq_nil inner y (List.length_eq_zero.1 (by assumption)) with
      rfl | ⟨w, rfl⟩
    · rfl
    · simp [mapGet, Ne.symm hb]
  · exact mapGet_mapDel_ne _ _ _ hb

theorem getIn_writeBack_mapDel_self_eq (prim : List (K × List (K × V)))
    (x y : K) (inner : List (K × V)) (hnd : (keysOf prim).Nodup)
    (hndInner : (keysOf inner).Nodup) :
    getIn (writeBack prim x (mapDel inner y)) x y = none := by
  rw [getIn_writeBack_self _ _ _ _ hnd]
  split
  · rfl
  · exact mapGet_mapDel_self _ _ hndInner

theorem get_eq_of_mapGet (m : ReversibleKeyMap K V) (x : K)
    (inn : List (K × V)) (h : mapGet m.map x = some inn) (b : K) :
    m.get x b = mapGet inn b := by
  unfold ReversibleKeyMap.get getIn
  rw [h]

/-- Full behaviour of `get` after a completed `delete`: the unordered
pair `{k1, k2}` is gone in both reading orders, every other pair is
untouched. -/
theorem get_delete (m m' : ReversibleKeyMap K V) (k1 k2 : K)
    (hInv : Inv m) (h : m.delete k1 k2 = some m') (a b : K) :
    m'.get a b =
      if (a = k1 ∧ b = k2) ∨ (a = k2 ∧ b = k1) then none
      else m.get a b := by
  obtain ⟨hnd, hinn, hsym, hne⟩ := hInv
  rcases delete_some_shape m m' k1 k2 h with
    ⟨he, hhc⟩ | ⟨k1map, k2map, hk1, hk2, he, hhc⟩
  · rw [he]
    have h1 : m.get k1 k2 = none := by
      have h2 := hasCouple_eq_isSome_get m k1 k2
      rw [hhc] at h2
      cases hg : m.get k1 k2 with
      | none => rfl
      | some v => rw [hg] at h2; simp at h2
    by_cases hc : (a = k1 ∧ b = k2) ∨ (a = k2 ∧ b = k1)
    · rw [if_pos hc]
      rcases hc with ⟨rfl, rfl⟩ | ⟨rfl, rfl⟩
      · exact h1
      · rw [hsym]
        exact h1
    · rw [if_neg hc]
  · have hndk1 : (keysOf k1map).Nodup := hinn _ (mapGet_mem _ _ _ hk1)
    have hnd1 : (keysOf (writeBack m.map k1 (mapDel k1map k2))).Nodup :=
      nodup_keysOf_writeBack _ _ _ hnd
    have hndk2 : (keysOf k2map).Nodup := by
      rcases mem_writeBack _ _ _ _ (mapGet_mem _ _ _ hk2) with h1 | ⟨h1, _⟩
      · exact hinn _ h1
      · rw [show k2map = mapDel k1map k2 from congrArg Prod.snd h1]
        exact nodup_keysOf_mapDel _ _ hndk1
    rw [he]
    show getIn (writeBack (writeBack m.map k1 (mapDel k1map k2)) k2
      (mapDel k2map k1)) a b = _
    by_cases ha2 : a = k2
    · subst ha2
      by_cases hb1 : b = k1
      · subst hb1
        rw [getIn_writeBack_mapDel_self_eq _ _ _ _ hnd1 hndk2]
        rw [if_pos (Or.inr ⟨rfl, rfl⟩)]
      · rw [getIn_writeBack_mapDel_self _ _ _ _ _ hnd1 hb1]
        have hcond : ¬((a = k1 ∧ b = a) ∨ (a = a ∧ b = k1)) := by
          rintro (⟨h1, h2⟩ | ⟨_, h2⟩)
          · exact hb1 (h2.trans h1)
          · exact hb1 h2
        rw [if_neg hcond]
        by_cases h21 : a = k1
        · subst h21
          rw [mapGet_writeBack_self _ _ _ hnd] at hk2
          split at hk2
          · cases hk2
          · rw [(Option.some.inj hk2).symm, mapGet_mapDel_ne _ _ _ hb1]
            rw [get_eq_of_mapGet m a k1map hk1 b]
        · rw [mapGet_writeBack_ne _ _ _ _ h21] at hk2
          rw [get_eq_of_mapGet m a k2map hk2 b]
    · rw [getIn_writeBack_ne _ _ _ _ _ ha2]
      by_cases ha1 : a = k1
      · subst ha1
        by_cases hb2 : b = k2
        · subst hb2
          rw [getIn_writeBack_mapDel_self_eq _ _ _ _ hnd hndk1]
          rw [if_pos (Or.inl ⟨rfl, rfl⟩)]
        · rw [getIn_writeBack_mapDel_self _ _ _ _ _ hnd hb2]
          have hcond : ¬((a = a ∧ b = k2) ∨ (a = k2 ∧ b = a)) := by
            rintro (⟨_, h2⟩ | ⟨h1, _⟩)
            · exact hb2 h2
            · exact ha2 h1
          rw [if_neg hcond]
          rw [get_eq_of_mapGet m a k1map hk1 b]
      · rw [getIn_writeBack_ne _ _ _ _ _ ha1]
        have hcond : ¬((a = k1 ∧ b = k2) ∨ (a = k2 ∧ b = k1)) := by
          rintro (⟨h1, _⟩ | ⟨h1, _⟩)
          · exact ha1 h1
          · exact ha2 h1
        rw [if_neg hcond]
        rfl

theorem inv_delete (m m' : ReversibleKeyMap K V) (k1 k2 : K)
    (hInv : Inv m) (h : m.delete k1 k2 = some m') : Inv m' := by
  obtain ⟨hnd, hinn, hsym, hne⟩ := hInv
  have hI : Inv m := ⟨hnd, hinn, hsym, hne⟩
  rcases delete_some_shape m m' k1 k2 h with
    ⟨he, _⟩ | ⟨k1map, k2map, hk1, hk2, he, hhc⟩
  · rw [he]
    exact hI
  · have hndk1 : (keysOf k1map).Nodup := hinn _ (mapGet_mem _ _ _ hk1)
    have hmem1 : ∀ p ∈ writeBack m.map k1 (mapDel k1map k2),
        (keysOf p.2).Nodup ∧ p.2 ≠ [] := by
      intro p hp
      rcases mem_writeBack _ _ _ _ hp with h1 | ⟨h1, h2⟩
      · exact ⟨hinn _ h1, hne _ h1⟩
      · rw [show p.2 = mapDel k1map k2 from congrArg Prod.snd h1]
        exact ⟨nodup_keysOf_mapDel _ _ hndk1, h2⟩
    have hndk2 : (keysOf k2map).Nodup := (hmem1 _ (mapGet_mem _ _ _ hk2)).1
    refine ⟨?_, ?_, ?_, ?_⟩
    · rw [he]
      exact nodup_keysOf_writeBack _ _ _ (nodup_keysOf_writeBack _ _ _ hnd)
    · rw [he]
      intro p hp
      rcases mem_writeBack _ _ _ _ hp with h1 | ⟨h1, _⟩
      · exact (hmem1 _ h1).1
      · rw [show p.2 = mapDel k2map k1 from congrArg Prod.snd h1]
        exact nodup_keysOf_mapDel _ _ hndk2
    · intro a b
      rw [get_delete m m' k1 k2 hI h a b, get_delete m m' k1 k2 hI h b a]
      by_cases hc : (a = k1 ∧ b = k2) ∨ (a = k2 ∧ b = k1)
      · rw [if_pos hc, if_pos (by tauto)]
      · rw [if_neg hc, if_neg (by tauto), hsym a b]
    · rw [he]
      intro p hp
      rcases mem_writeBack _ _ _ _ hp with h1 | ⟨h1, h2⟩
      · exact (hmem1 _ h1).2
      · rw [show p.2 = mapDel k2map k1 from congrArg Prod.snd h1]
        exact h2

theorem inv_delAllGo (k1 : K) (ks : List K) :
    ∀ m m' : ReversibleKeyMap K V,
      Inv m → delAllGo k1 m ks = some m' → Inv m' := by
  induction ks with
  | nil =>
    intro m m' hI h
    simp [delAllGo] at h
    rw [← h]
    exact hI
  | cons x rest ih =>
    intro m m' hI h
    unfold delAllGo at h
    cases hd : m.delete k1 x with
    | none => rw [hd] at h; cases h
    | some m2 =>
      rw [hd] at h
      exact ih m2 m' (inv_delete m m2 k1 x hI hd) h

theorem inv_deleteAllFrom (m m' : ReversibleKeyMap K V) (k1 : K)
    (hI : Inv m) (h : m.deleteAllFrom k1 = some m') : Inv m' := by
  unfold ReversibleKeyMap.deleteAllFrom at h
  cases hhas : m.has k1 with
  | false =>
    rw [hhas] at h
    simp at h
    rw [← h]
    exact hI
  | true =>
    rw [hhas] at h
    simp only [if_true] at h
    cases hg : m.getAllFrom k1 with
    | none =>
      rw [hg] at h
      simp at h
      rw [← h]
      exact hI
    | some inner =>
      rw [hg] at h
      exact inv_delAllGo k1 (keysOf inner) m m' hI h

theorem reachable_inv (m : ReversibleKeyMap K V) (h : Reachable m) :
    Inv m := by
  induction h with
  | empty => exact inv_empty
  | set k1 k2 v _ ih => exact inv_set _ k1 k2 v ih
  | clear _ ih => exact inv_clear _
  | del k1 k2 _ hd ih => exact inv_delete _ _ k1 k2 ih hd
  | delAll k1 _ hd ih => exact inv_deleteAllFrom _ _ k1 ih hd

/-! ### The deduplicating `entries` traversal -/

theorem mem_setAdd (s : List K) (k x : K) :
    x ∈ setAdd s k ↔ x ∈ s ∨ x = k := by
  unfold setAdd
  by_cases hk : k ∈ s
  · rw [if_pos hk]
    constructor
    · exact Or.inl
    · rintro (h | rfl)
      · exact h
      · exact hk
  · rw [if_neg hk]
    simp

theorem pairMatch_eq_true (a b : K) (e : (K × K) × V) :
    pairMatch a b e = true ↔
      ((e.1.1 = a ∧ e.1.2 = b) ∨ (e.1.1 = b ∧ e.1.2 = a)) := by
  unfold pairMatch
  simp

theorem seenIn_ensureKey (c : List (K × List K)) (k : K) :
    ∀ x y, seenIn (ensureKey c k) x y ↔ seenIn c x y := by
  intro x y
  unfold ensureKey
  by_cases h : mapHas c k = true
  · rw [if_pos h]
  · rw [if_neg h]
    unfold seenIn
    by_cases hx : x = k
    · subst hx
      rw [mapGet_mapSet_self]
      have hnone : mapGet c x = none := by
        unfold mapHas at h
        cases hg : mapGet c x with
        | none => rfl
        | some s => rw [hg] at h; simp at h
      rw [hnone]
      simp
    · rw [mapGet_mapSet_ne _ _ _ _ hx]

theorem seenIn_setRecord (c : List (K × List K)) (u w : K) :
    ∀ x y, seenIn (setRecord c u w) x y ↔
      (seenIn c x y ∨ (x = u ∧ y = w)) := by
  intro x y
  unfold setRecord seenIn
  by_cases hx : x = u
  · subst hx
    rw [mapGet_mapSet_self]
    simp only [Option.getD_some]
    rw [mem_setAdd]
    simp
  · rw [mapGet_mapSet_ne _ _ _ _ hx]
    simp [hx]

theorem symSeen_nil : SymSeen ([] : List (K × List K)) := by
  intro x y h
  unfold seenIn at h
  simp [mapGet] at h

/-- Behaviour of the inner generator loop, by induction over one
secondary map: the side-table stays symmetric, afterwards it records
exactly the old pairs plus the pairs formed by `key1` with the traversed
co-keys, and the traversal yields the pair `{a, b}` once when it occurs
here and was not yet recorded, and never otherwise. -/
theorem entriesInner_spec (key1 : K) (inner : List (K × V)) :
    ∀ c : List (K × List K), SymSeen c →
      SymSeen (entriesInner key1 inner c).2 ∧
      (∀ x y, seenIn (entriesInner key1 inner c).2 x y ↔
        (seenIn c x y ∨ (x = key1 ∧ y ∈ keysOf inner) ∨
          (y = key1 ∧ x ∈ keysOf inner))) ∧
      (∀ a b, ((entriesInner key1 inner c).1).countP (pairMatch a b) =
        if occInner key1 inner a b ∧ ¬ seenIn c a b then 1 else 0) := by
  induction inner with
  | nil =>
    intro c hs
    refine ⟨hs, ?_, ?_⟩
    · intro x y
      simp [entriesInner, keysOf]
    · intro a b
      simp [entriesInner, occInner, keysOf]
  | cons p rest ih =>
    obtain ⟨key2, value⟩ := p
    intro c hs
    have hstate : (entriesInner key1 ((key2, value) :: rest) c).2 =
        (entriesInner key1 rest
          (setRecord (setRecord (ensureKey c key2) key1 key2) key2 key1)).2 := by
      simp only [entriesInner]
    have hitems : (entriesInner key1 ((key2, value) :: rest) c).1 =
        (if key2 ∈ (mapGet (ensureKey c key2) key1).getD []
          then ([] : List ((K × K) × V)) else [((key1, key2), value)]) ++
        (entriesInner key1 rest
          (setRecord (setRecord (ensureKey c key2) key1 key2) key2 key1)).1 := by
      simp only [entriesInner]
    have hseen1 := seenIn_ensureKey c key2
    have hseen3 : ∀ x y,
        seenIn (setRecord (setRecord (ensureKey c key2) key1 key2) key2 key1) x y ↔
          (seenIn c x y ∨ (x = key1 ∧ y = key2) ∨ (x = key2 ∧ y = key1)) := by
      intro x y
      rw [seenIn_setRecord, seenIn_setRecord, hseen1]
      tauto
    have hsym3 : SymSeen
        (setRecord (setRecord (ensureKey c key2) key1 key2) key2 key1) := by
      intro x y hxy
      rw [hseen3] at hxy ⊢
      rcases hxy with h | ⟨rfl, rfl⟩ | ⟨rfl, rfl⟩
      · exact Or.inl (hs x y h)
      · exact Or.inr (Or.inr ⟨rfl, rfl⟩)
      · exact Or.inr (Or.inl ⟨rfl, rfl⟩)
    obtain ⟨ihSym, ihSeen, ihCount⟩ := ih _ hsym3
    refine ⟨?_, ?_, ?_⟩
    · rw [hstate]
      exact ihSym
    · intro x y
      rw [hstate, ihSeen x y, hseen3 x y, keysOf_cons]
      simp only [List.mem_cons]
      tauto
    · intro a b
      rw [hitems, List.countP_append, ihCount a b]
      by_cases hM : (key1 = a ∧ key2 = b) ∨ (key1 = b ∧ key2 = a)
      · have hseq : seenIn c a b ↔ seenIn c key1 key2 := by
          rcases hM with ⟨rfl, rfl⟩ | ⟨rfl, rfl⟩
          · exact Iff.rfl
          · exact ⟨fun h => hs _ _ h, fun h => hs _ _ h⟩
        by_cases hseen : seenIn c a b
        · rw [if_pos (show key2 ∈ (mapGet (ensureKey c key2) key1).getD [] from
            (hseen1 key1 key2).2 (hseq.1 hseen))]
          rw [if_neg (by intro hx; exact hx.2 ((hseen3 a b).2 (Or.inl hseen)))]
          rw [if_neg (by intro hx; exact hx.2 hseen)]
          simp
        · rw [if_neg (show ¬ key2 ∈ (mapGet (ensureKey c key2) key1).getD [] from
            fun hmem => hseen (hseq.2 ((hseen1 key1 key2).1 hmem)))]
          have hpm : pairMatch a b ((key1, key2), value) = true := by
            rcases hM with ⟨rfl, rfl⟩ | ⟨rfl, rfl⟩ <;> simp [pairMatch]
          have hseen3ab : seenIn
              (setRecord (setRecord (ensureKey c key2) key1 key2) key2 key1) a b := by
            rw [hseen3]
            rcases hM with ⟨rfl, rfl⟩ | ⟨rfl, rfl⟩
            · exact Or.inr (Or.inl ⟨rfl, rfl⟩)
            · exact Or.inr (Or.inr ⟨rfl, rfl⟩)
          rw [if_neg (by intro hx; exact hx.2 hseen3ab)]
          have hocc : occInner key1 ((key2, value) :: rest) a b := by
            rcases hM with ⟨rfl, rfl⟩ | ⟨rfl, rfl⟩
            · exact Or.inl ⟨rfl, by rw [keysOf_cons]; exact List.mem_cons_self _ _⟩
            · exact Or.inr ⟨rfl, by rw [keysOf_cons]; exact List.mem_cons_self _ _⟩
          rw [if_pos ⟨hocc, hseen⟩]
          simp [List.countP_cons, hpm]
      · have hpmF : pairMatch a b ((key1, key2), value) = false := by
          cases hpm : pairMatch a b ((key1, key2), value) with
          | false => rfl
          | true => exact absurd ((pairMatch_eq_true a b _).1 hpm) hM
        have hys0 : List.countP (pairMatch a b)
            (if key2 ∈ (mapGet (ensureKey c key2) key1).getD []
              then ([] : List ((K × K) × V)) else [((key1, key2), value)]) = 0 := by
          split
          · rfl
          · simp [List.countP_cons, hpmF]
        rw [hys0, Nat.zero_add]
        have hs3 : seenIn
            (setRecord (setRecord (ensureKey c key2) key1 key2) key2 key1) a b ↔
              seenIn c a b := by
          rw [hseen3]
          constructor
          · rintro (h | ⟨rfl, rfl⟩ | ⟨rfl, rfl⟩)
            · exact h
            · exact absurd (Or.inl ⟨rfl, rfl⟩) hM
            · exact absurd (Or.inr ⟨rfl, rfl⟩) hM
          · exact Or.inl
        have hocc : occInner key1 ((key2, value) :: rest) a b ↔
            occInner key1 rest a b := by
          unfold occInner
          rw [keysOf_cons]
          simp only [List.mem_cons]
          constructor
          · rintro (⟨rfl, (rfl | hm)⟩ | ⟨rfl, (rfl | hm)⟩)
            · exact absurd (Or.inl ⟨rfl, rfl⟩) hM
            · exact Or.inl ⟨rfl, hm⟩
            · exact absurd (Or.inr ⟨rfl, rfl⟩) hM
            · exact Or.inr ⟨rfl, hm⟩
          · rintro (⟨rfl, hm⟩ | ⟨rfl, hm⟩)
            · exact Or.inl ⟨rfl, Or.inr hm⟩
            · exact Or.inr ⟨rfl, Or.inr hm⟩
        simp only [hs3, hocc]

/-- Behaviour of the full generator: starting from side-table `c`, the
pair `{a, b}` is yielded once when it occurs in the primary index and is
not yet recorded, and never otherwise. -/
theorem entriesOuter_spec (l : List (K × List (K × V))) :
    ∀ c : List (K × List K), SymSeen c →
      ∀ a b, (entriesOuter l c).countP (pairMatch a b) =
        if occAll l a b ∧ ¬ seenIn c a b then 1 else 0 := by
  induction l with
  | nil =>
    intro c hs a b
    simp [entriesOuter, occAll]
  | cons p rest ih =>
    obtain ⟨key1, inner⟩ := p
    intro c hs a b
    have heq : entriesOuter ((key1, inner) :: rest) c =
        (entriesInner key1 inner (ensureKey c key1)).1 ++
          entriesOuter rest (entriesInner key1 inner (ensureKey c key1)).2 := by
      simp only [entriesOuter]
    rw [heq, List.countP_append]
    have hsc1 : SymSeen (ensureKey c key1) := by
      intro x y h
      rw [seenIn_ensureKey] at h ⊢
      exact hs x y h
    obtain ⟨hsym2, hseen2, hcount⟩ := entriesInner_spec key1 inner (ensureKey c key1) hsc1
    rw [hcount a b, ih _ hsym2 a b]
    have hseenc1 : seenIn (ensureKey c key1) a b ↔ seenIn c a b :=
      seenIn_ensureKey c key1 a b
    have hseen2ab : seenIn (entriesInner key1 inner (ensureKey c key1)).2 a b ↔
        (seenIn c a b ∨ (a = key1 ∧ b ∈ keysOf inner) ∨
          (b = key1 ∧ a ∈ keysOf inner)) := by
      rw [hseen2 a b, hseenc1]
    have hoccCons : occAll ((key1, inner) :: rest) a b ↔
        (occInner key1 inner a b ∨ occAll rest a b) := by
      unfold occAll occInner
      constructor
      · rintro ⟨p, hp, hP⟩
        rcases List.mem_cons.1 hp with rfl | hp2
        · exact Or.inl hP
        · exact Or.inr ⟨p, hp2, hP⟩
      · rintro (h | ⟨p, hp, hP⟩)
        · exact ⟨(key1, inner), List.mem_cons_self _ _, h⟩
        · exact ⟨p, List.mem_cons_of_mem _ hp, hP⟩
    by_cases hseen : seenIn c a b
    · rw [if_neg (by intro hx; exact hx.2 (hseenc1.2 hseen))]
      rw [if_neg (by intro hx; exact hx.2 (hseen2ab.2 (Or.inl hseen)))]
      rw [if_neg (by intro hx; exact hx.2 hseen)]
    · by_cases hocc1 : occInner key1 inner a b
      · rw [if_pos ⟨hocc1, fun hh => hseen (hseenc1.1 hh)⟩]
        have hseen2T : seenIn (entriesInner key1 inner (ensureKey c key1)).2 a b := by
          refine hseen2ab.2 (Or.inr ?_)
          rcases hocc1 with ⟨h1, h2⟩ | ⟨h1, h2⟩
          · exact Or.inl ⟨h1.symm, h2⟩
          · exact Or.inr ⟨h1.symm, h2⟩
        rw [if_neg (by intro hx; exact hx.2 hseen2T)]
        rw [if_pos ⟨hoccCons.2 (Or.inl hocc1), hseen⟩]
      · rw [if_neg (by intro hx; exact hocc1 hx.1), Nat.zero_add]
        have hseen2F : seenIn (entriesInner key1 inner (ensureKey c key1)).2 a b ↔
            seenIn c a b := by
          rw [hseen2ab]
          constructor
          · rintro (h | ⟨rfl, hm⟩ | ⟨rfl, hm⟩)
            · exact h
            · exact absurd (Or.inl ⟨rfl, hm⟩) hocc1
            · exact absurd (Or.inr ⟨rfl, hm⟩) hocc1
          · exact Or.inl
        simp only [hseen2F, hoccCons]
        simp [hocc1]

theorem hasCouple_of_mem (m : ReversibleKeyMap K V)
    (hnd : (keysOf m.map).Nodup) (p : K × List (K × V)) (hp : p ∈ m.map)
    (b : K) (hb : b ∈ keysOf p.2) : m.hasCouple p.1 b = true := by
  have hga : mapGet m.map p.1 = some p.2 := mem_mapGet _ _ _ hnd hp
  unfold ReversibleKeyMap.hasCouple
  rw [hga]
  unfold mapHas
  rw [mapGet_isSome_iff]
  exact hb

/-- Over a well-formed state, the pair `{a, b}` occurs in the primary
index exactly when `hasCouple` reports it. -/
theorem occAll_iff_hasCouple (m : ReversibleKeyMap K V) (hI : Inv m)
    (a b : K) : occAll m.map a b ↔ m.hasCouple a b = true := by
  obtain ⟨hnd, hinn, hsym, hne⟩ := hI
  constructor
  · rintro ⟨p, hp, ⟨h1, h2⟩ | ⟨h1, h2⟩⟩
    · exact h1 ▸ hasCouple_of_mem m hnd p hp b h2
    · have hba := h1 ▸ hasCouple_of_mem m hnd p hp a h2
      rw [hasCouple_eq_isSome_get] at hba ⊢
      rw [hsym a b]
      exact hba
  · intro hc
    unfold ReversibleKeyMap.hasCouple at hc
    cases hg : mapGet m.map a with
    | none => rw [hg] at hc; cases hc
    | some inn =>
      rw [hg] at hc
      exact ⟨(a, inn), mapGet_mem _ _ _ hg,
        Or.inl ⟨rfl, (mapGet_isSome_iff inn b).1 hc⟩⟩

/-- Master count theorem for `entries`: each present unordered pair is
yielded exactly once, each absent one never. -/
theorem entries_countP (m : ReversibleKeyMap K V) (hI : Inv m) (a b : K) :
    m.entries.countP (pairMatch a b) =
      if m.hasCouple a b = true then 1 else 0 := by
  have h := entriesOuter_spec m.map [] symSeen_nil a b
  have hseenNil : ¬ seenIn ([] : List (K × List K)) a b := by
    unfold seenIn
    simp [mapGet]
  show (entriesOuter m.map []).countP (pairMatch a b) = _
  rw [h]
  by_cases hc : m.hasCouple a b = true
  · rw [if_pos hc, if_pos ⟨(occAll_iff_hasCouple m hI a b).2 hc, hseenNil⟩]
  · rw [if_neg hc,
      if_neg (fun hx => hc ((occAll_iff_hasCouple m hI a b).1 hx.1))]

theorem mem_entriesInner (key1 : K) (inner : List (K × V)) :
    ∀ (c : List (K × List K)) (e : (K × K) × V),
      e ∈ (entriesInner key1 inner c).1 →
        e.1.1 = key1 ∧ (e.1.2, e.2) ∈ inner := by
  induction inner with
  | nil =>
    intro c e he
    simp [entriesInner] at he
  | cons p rest ih =>
    obtain ⟨key2, value⟩ := p
    intro c e he
    have heq : (entriesInner key1 ((key2, value) :: rest) c).1 =
        (if key2 ∈ (mapGet (ensureKey c key2) key1).getD []
          then ([] : List ((K × K) × V)) else [((key1, key2), value)]) ++
        (entriesInner key1 rest
          (setRecord (setRecord (ensureKey c key2) key1 key2) key2 key1)).1 := by
      simp only [entriesInner]
    rw [heq] at he
    rcases List.mem_append.1 he with h1 | h1
    · split at h1
      · simp at h1
      · simp only [List.mem_singleton] at h1
        rw [h1]
        exact ⟨rfl, List.mem_cons_self _ _⟩
    · obtain ⟨h2, h3⟩ := ih _ e h1
      exact ⟨h2, List.mem_cons_of_mem _ h3⟩

theorem mem_entriesOuter (l : List (K × List (K × V))) :
    ∀ (c : List (K × List K)) (e : (K × K) × V), e ∈ entriesOuter l c →
      ∃ inner, (e.1.1, inner) ∈ l ∧ (e.1.2, e.2) ∈ inner := by
  induction l with
  | nil =>
    intro c e he
    simp [entriesOuter] at he
  | cons p rest ih =>
    obtain ⟨key1, inner⟩ := p
    intro c e he
    have heq : entriesOuter ((key1, inner) :: rest) c =
        (entriesInner key1 inner (ensureKey c key1)).1 ++
          entriesOuter rest (entriesInner key1 inner (ensureKey c key1)).2 := by
      simp only [entriesOuter]
    rw [heq] at he
    rcases List.mem_append.1 he with h1 | h1
    · obtain ⟨h2, h3⟩ := mem_entriesInner key1 inner _ e h1
      refine ⟨inner, ?_, h3⟩
      rw [h2]
      exact List.mem_cons_self _ _
    · obtain ⟨inn, h2, h3⟩ := ih _ e h1
      exact ⟨inn, List.mem_cons_of_mem _ h2, h3⟩

/-- Every item yielded by `entries` is a stored pair with its value. -/
theorem entries_sound (m : ReversibleKeyMap K V) (hI : Inv m) :
    ∀ e ∈ m.entries, m.get e.1.1 e.1.2 = some e.2 := by
  obtain ⟨hnd, hinn, _, _⟩ := hI
  intro e he
  obtain ⟨inn, h1, h2⟩ := mem_entriesOuter m.map [] e he
  have hga : mapGet m.map e.1.1 = some inn := mem_mapGet _ _ _ hnd h1
  have hgb : mapGet inn e.1.2 = some e.2 :=
    mem_mapGet _ _ _ (hinn (e.1.1, inn) h1) h2
  rw [get_eq_of_mapGet m _ _ hga, hgb]

/-! ### Consequences for `has`, `delete` of a last pair, `deleteAllFrom` -/

theorem hasCouple_elim (m : ReversibleKeyMap K V) (a b : K)
    (h : m.hasCouple a b = true) :
    ∃ inn, mapGet m.map a = some inn ∧ b ∈ keysOf inn := by
  unfold ReversibleKeyMap.hasCouple at h
  cases hg : mapGet m.map a with
  | none => rw [hg] at h; cases h
  | some inn =>
    rw [hg] at h
    exact ⟨inn, rfl, (mapGet_isSome_iff inn b).1 h⟩

theorem has_iff_mem_keys (m : ReversibleKeyMap K V) (k : K) :
    m.has k = true ↔ k ∈ keysOf m.map := by
  unfold ReversibleKeyMap.has mapHas
  exact mapGet_isSome_iff m.map k

theorem get_some_mem_keys (m : ReversibleKeyMap K V) (a b : K) (v : V)
    (h : m.get a b = some v) : a ∈ keysOf m.map := by
  unfold ReversibleKeyMap.get getIn at h
  cases hg : mapGet m.map a with
  | none => rw [hg] at h; cases h
  | some inn =>
    rw [← mapGet_isSome_iff, hg]
    rfl

/-- Both keys of every yielded entry are live top-level keys. -/
theorem entries_keys_mem (m : ReversibleKeyMap K V) (hI : Inv m) :
    ∀ e ∈ m.entries, e.1.1 ∈ keysOf m.map ∧ e.1.2 ∈ keysOf m.map := by
  intro e he
  have hg := entries_sound m hI e he
  refine ⟨get_some_mem_keys m _ _ _ hg, ?_⟩
  have hsym := hI.2.2.1
  rw [hsym e.1.1 e.1.2] at hg
  exact get_some_mem_keys m _ _ _ hg

/-- The no-orphan reading of `has`: a key is a live top-level entry
exactly when its secondary map exists and is non-empty. -/
theorem has_iff_nonempty_inner (m : ReversibleKeyMap K V) (hI : Inv m)
    (k : K) :
    m.has k = true ↔ ∃ inn, m.getAllFrom k = some inn ∧ inn ≠ [] := by
  obtain ⟨hnd, hinn, hsym, hne⟩ := hI
  unfold ReversibleKeyMap.has mapHas ReversibleKeyMap.getAllFrom
  constructor
  · intro h
    cases hg : mapGet m.map k with
    | none => rw [hg] at h; cases h
    | some inn => exact ⟨inn, rfl, hne (k, inn) (mapGet_mem _ _ _ hg)⟩
  · rintro ⟨inn, hg, _⟩
    rw [hg]
    rfl

/-- Deleting the unique remaining pair of `k1` removes `k1` entirely. -/
theorem delete_last_pair (m m' : ReversibleKeyMap K V) (k1 k2 : K) (v : V)
    (hI : Inv m) (hg : m.getAllFrom k1 = some [(k2, v)])
    (hdel : m.delete k1 k2 = some m') : m'.has k1 = false := by
  obtain ⟨hnd, hinn, hsym, hne⟩ := hI
  unfold ReversibleKeyMap.getAllFrom at hg
  rcases delete_some_shape m m' k1 k2 hdel with
    ⟨he, hhc⟩ | ⟨k1map, k2map, hk1, hk2, he, hhc⟩
  · exfalso
    unfold ReversibleKeyMap.hasCouple at hhc
    rw [hg] at hhc
    simp [mapHas, mapGet] at hhc
  · rw [hk1] at hg
    have hk1map : k1map = [(k2, v)] := Option.some.inj hg
    subst hk1map
    have hdelnil : mapDel [(k2, v)] k2 = [] := by
      simp [mapDel]
    rw [hdelnil] at hk2 he
    have h21 : k2 ≠ k1 := by
      rintro rfl
      rw [show writeBack m.map k2 [] = mapDel m.map k2 from rfl] at hk2
      rw [mapGet_mapDel_self _ _ hnd] at hk2
      cases hk2
    rw [he]
    unfold ReversibleKeyMap.has mapHas
    have : mapGet (writeBack (writeBack m.map k1 []) k2 (mapDel k2map k1)) k1 =
        mapGet (writeBack m.map k1 []) k1 :=
      mapGet_writeBack_ne _ _ _ _ (Ne.symm h21)
    rw [this, show writeBack m.map k1 [] = mapDel m.map k1 from rfl,
      mapGet_mapDel_self _ _ hnd]
    rfl

/-- Running the `deleteAllFrom` loop over exactly the co-keys of `k1`
removes `k1` entirely (when every `delete` call completes). -/
theorem delAllGo_clears (k1 : K) (ks : List K) :
    ∀ m m' : ReversibleKeyMap K V, Inv m →
      (∀ inn, mapGet m.map k1 = some inn → keysOf inn = ks) →
      (mapGet m.map k1 = none → ks = []) →
      delAllGo k1 m ks = some m' → m'.has k1 = false := by
  induction ks with
  | nil =>
    intro m m' hI h1 h2 hd
    simp [delAllGo] at hd
    rw [← hd]
    unfold ReversibleKeyMap.has mapHas
    cases hg : mapGet m.map k1 with
    | none => rfl
    | some inn =>
      exfalso
      have hkeys := h1 inn hg
      have hinn : inn = [] := by
        cases inn with
        | nil => rfl
        | cons q t => rw [keysOf_cons] at hkeys; cases hkeys
      exact hI.2.2.2 (k1, inn) (mapGet_mem _ _ _ hg) hinn
  | cons x rest ih =>
    intro m m' hI h1 h2 hd
    unfold delAllGo at hd
    cases hdel : m.delete k1 x with
    | none => rw [hdel] at hd; cases hd
    | some m2 =>
      rw [hdel] at hd
      obtain ⟨hnd, hinn, hsym, hne⟩ := hI
      have hI2 : Inv m2 := inv_delete _ _ _ _ ⟨hnd, hinn, hsym, hne⟩ hdel
      cases hg0 : mapGet m.map k1 with
      | none => cases h2 hg0
      | some inn0 =>
        have hkeys0 : keysOf inn0 = x :: rest := h1 inn0 hg0
        obtain ⟨q, inn0t, rfl, hqx, hkt⟩ :
            ∃ q inn0t, inn0 = q :: inn0t ∧ q.1 = x ∧ keysOf inn0t = rest := by
          cases inn0 with
          | nil => rw [keysOf_nil] at hkeys0; cases hkeys0
          | cons q t =>
            rw [keysOf_cons] at hkeys0
            exact ⟨q, t, rfl, (List.cons.inj hkeys0).1, (List.cons.inj hkeys0).2⟩
        obtain ⟨xv, rfl⟩ : ∃ xv, q = (x, xv) := by
          cases q with
          | mk q1 q2 => exact ⟨q2, by rw [← hqx]⟩
        have hdelHead : mapDel ((x, xv) :: inn0t) x = inn0t := by
          simp [mapDel]
        have hndInn0 : ((x :: keysOf inn0t) : List K).Nodup := by
          have := hinn (k1, (x, xv) :: inn0t) (mapGet_mem _ _ _ hg0)
          rwa [keysOf_cons] at this
        rcases delete_some_shape m m2 k1 x hdel with
          ⟨he, hhc⟩ | ⟨k1map, k2map, hk1, hk2, he, hhc⟩
        · exfalso
          unfold ReversibleKeyMap.hasCouple at hhc
          rw [hg0] at hhc
          simp [mapHas, mapGet] at hhc
        · rw [hg0] at hk1
          have hk1map : k1map = (x, xv) :: inn0t := (Option.some.inj hk1).symm
          subst hk1map
          rw [hdelHead] at hk2 he
          by_cases hxk : x = k1
          · subst hxk
            rw [mapGet_writeBack_self _ _ _ hnd] at hk2
            have hlen : ¬ inn0t.length = 0 := by
              intro h0
              rw [if_pos h0] at hk2
              cases hk2
            rw [if_neg hlen] at hk2
            have hk2map : k2map = inn0t := (Option.some.inj hk2).symm
            have hxnot : x ∉ keysOf inn0t := (List.nodup_cons.1 hndInn0).1
            rw [hk2map, mapDel_of_not_mem _ _ hxnot] at he
            refine ih m2 m' hI2 ?_ ?_ hd
            · intro inn hik
              rw [he] at hik
              rw [show (ReversibleKeyMap.mk
                  (writeBack (writeBack m.map x inn0t) x inn0t) :
                    ReversibleKeyMap K V).map =
                  writeBack (writeBack m.map x inn0t) x inn0t from rfl] at hik
              rw [mapGet_writeBack_self _ _ _
                (nodup_keysOf_writeBack _ _ _ hnd)] at hik
              rw [if_neg hlen] at hik
              rw [← (Option.some.inj hik)]
              exact hkt
            · intro hik
              rw [he] at hik
              rw [show (ReversibleKeyMap.mk
                  (writeBack (writeBack m.map x inn0t) x inn0t) :
                    ReversibleKeyMap K V).map =
                  writeBack (writeBack m.map x inn0t) x inn0t from rfl] at hik
              rw [mapGet_writeBack_self _ _ _
                (nodup_keysOf_writeBack _ _ _ hnd)] at hik
              rw [if_neg hlen] at hik
              cases hik
          · refine ih m2 m' hI2 ?_ ?_ hd
            · intro inn hik
              rw [he] at hik
              have hget : mapGet m2.map k1 =
                  mapGet (writeBack m.map k1 inn0t) k1 := by
                rw [he]
                exact mapGet_writeBack_ne _ _ _ _ (Ne.symm hxk)
              rw [← he, hget, mapGet_writeBack_self _ _ _ hnd] at hik
              by_cases hlen : inn0t.length = 0
              · rw [if_pos hlen] at hik
                cases hik
              · rw [if_neg hlen] at hik
                rw [← (Option.some.inj hik)]
                exact hkt
            · intro hik
              rw [he] at hik
              have hget : mapGet m2.map k1 =
                  mapGet (writeBack m.map k1 inn0t) k1 := by
                rw [he]
                exact mapGet_writeBack_ne _ _ _ _ (Ne.symm hxk)
              rw [← he, hget, mapGet_writeBack_self _ _ _ hnd] at hik
              by_cases hlen : inn0t.length = 0
              · rw [← hkt]
                rw [List.length_eq_zero] at hlen
                rw [hlen]
                rfl
              · rw [if_neg hlen] at hik
                cases hik

/-- Postcondition of every completed `deleteAllFrom` call: the key is
gone and no remaining yielded pair mentions it. -/
theorem deleteAllFrom_post (m m' : ReversibleKeyMap K V) (k : K)
    (hI : Inv m) (h : m.deleteAllFrom k = some m') :
    m'.has k = false ∧ ∀ e ∈ m'.entries, e.1.1 ≠ k ∧ e.1.2 ≠ k := by
  have hI2 : Inv m' := inv_deleteAllFrom m m' k hI h
  have hhk : m'.has k = false := by
    unfold ReversibleKeyMap.deleteAllFrom at h
    cases hhas : m.has k with
    | false =>
      rw [hhas] at h
      simp at h
      rw [← h]
      exact hhas
    | true =>
      rw [hhas] at h
      simp only [if_true] at h
      cases hg : m.getAllFrom k with
      | none =>
        exfalso
        unfold ReversibleKeyMap.has mapHas at hhas
        unfold ReversibleKeyMap.getAllFrom at hg
        rw [hg] at hhas
        cases hhas
      | some inner =>
        rw [hg] at h
        refine delAllGo_clears k (keysOf inner) m m' hI ?_ ?_ h
        · intro inn hik
          unfold ReversibleKeyMap.getAllFrom at hg
          rw [hg] at hik
          rw [Option.some.inj hik]
        · intro hik
          unfold ReversibleKeyMap.getAllFrom at hg
          rw [hg] at hik
          cases hik
  refine ⟨hhk, ?_⟩
  intro e he
  have hmem := entries_keys_mem m' hI2 e he
  have hknot : k ∉ keysOf m'.map := by
    intro hkk
    rw [← has_iff_mem_keys] at hkk
    rw [hhk] at hkk
    cases hkk
  exact ⟨fun h1 => hknot (h1 ▸ hmem.1), fun h2 => hknot (h2 ▸ hmem.2)⟩

/-! ### Shape preservation, for the re-set overwrite property -/

omit [DecidableEq K] in
theorem shapeEq_refl (l : List (K × List (K × V))) : ShapeEq l l := by
  induction l with
  | nil => exact List.Forall₂.nil
  | cons p t ih => exact List.Forall₂.cons ⟨rfl, rfl⟩ ih

omit [DecidableEq K] in
theorem shapeEq_trans (l1 l2 l3 : List (K × List (K × V)))
    (h12 : ShapeEq l1 l2) (h23 : ShapeEq l2 l3) : ShapeEq l1 l3 := by
  induction h12 generalizing l3 with
  | nil =>
    cases h23
    exact List.Forall₂.nil
  | cons h t ih =>
    cases h23 with
    | cons h2 t2 =>
      exact List.Forall₂.cons ⟨h.1.trans h2.1, h.2.trans h2.2⟩ (ih _ t2)

theorem shape_mapGet (l1 l2 : List (K × List (K × V))) (h : ShapeEq l1 l2)
    (k : K) :
    Option.map keysOf (mapGet l1 k) = Option.map keysOf (mapGet l2 k) := by
  induction h with
  | nil => rfl
  | @cons p q t1 t2 hpq ht ih =>
    obtain ⟨p1, p2⟩ := p
    obtain ⟨q1, q2⟩ := q
    obtain ⟨hk1, hk2⟩ := hpq
    dsimp at hk1 hk2
    subst hk1
    by_cases hpk : p1 = k
    · rw [show mapGet ((p1, p2) :: t1) k = some p2 from by simp [mapGet, hpk]]
      rw [show mapGet ((p1, q2) :: t2) k = some q2 from by simp [mapGet, hpk]]
      simp [hk2]
    · rw [show mapGet ((p1, p2) :: t1) k = mapGet t1 k from by
        simp [mapGet, hpk]]
      rw [show mapGet ((p1, q2) :: t2) k = mapGet t2 k from by
        simp [mapGet, hpk]]
      exact ih

theorem shape_hasCouple (m1 m2 : ReversibleKeyMap K V)
    (h : ShapeEq m1.map m2.map) (a b : K) :
    m1.hasCouple a b = m2.hasCouple a b := by
  have hg := shape_mapGet _ _ h a
  unfold ReversibleKeyMap.hasCouple
  cases h1 : mapGet m1.map a with
  | none =>
    rw [h1] at hg
    cases h2 : mapGet m2.map a with
    | none => rfl
    | some i2 => rw [h2] at hg; cases hg
  | some i1 =>
    rw [h1] at hg
    cases h2 : mapGet m2.map a with
    | none => rw [h2] at hg; cases hg
    | some i2 =>
      rw [h2] at hg
      have hkeys : keysOf i1 = keysOf i2 := by
        simpa using hg
      have hiff : (mapHas i1 b = true) ↔ (mapHas i2 b = true) := by
        unfold mapHas
        rw [mapGet_isSome_iff, mapGet_isSome_iff, hkeys]
      show mapHas i1 b = mapHas i2 b
      cases hb1 : mapHas i1 b with
      | true => exact (hiff.1 hb1).symm
      | false =>
        cases hb2 : mapHas i2 b with
        | false => rfl
        | true => rw [hiff.2 hb2] at hb1; cases hb1

/-- The generator's output length only depends on the key structure of
the primary index, not on the stored values. -/
theorem entriesInner_shape (key1 : K) (inner1 : List (K × V)) :
    ∀ (inner2 : List (K × V)) (c : List (K × List K)),
      keysOf inner1 = keysOf inner2 →
      (entriesInner key1 inner1 c).1.length =
        (entriesInner key1 inner2 c).1.length ∧
      (entriesInner key1 inner1 c).2 = (entriesInner key1 inner2 c).2 := by
  induction inner1 with
  | nil =>
    intro inner2 c hk
    cases inner2 with
    | nil => exact ⟨rfl, rfl⟩
    | cons q t => rw [keysOf_nil, keysOf_cons] at hk; cases hk
  | cons p t1 ih =>
    intro inner2 c hk
    obtain ⟨x, v1⟩ := p
    cases inner2 with
    | nil => rw [keysOf_cons, keysOf_nil] at hk; cases hk
    | cons q t2 =>
      obtain ⟨y, v2⟩ := q
      rw [keysOf_cons, keysOf_cons] at hk
      obtain ⟨hxy, ht⟩ := List.cons.inj hk
      subst hxy
      have i1 : (entriesInner key1 ((x, v1) :: t1) c).1 =
          (if x ∈ (mapGet (ensureKey c x) key1).getD []
            then ([] : List ((K × K) × V)) else [((key1, x), v1)]) ++
          (entriesInner key1 t1
            (setRecord (setRecord (ensureKey c x) key1 x) x key1)).1 := by
        simp only [entriesInner]
      have s1 : (entriesInner key1 ((x, v1) :: t1) c).2 =
          (entriesInner key1 t1
            (setRecord (setRecord (ensureKey c x) key1 x) x key1)).2 := by
        simp only [entriesInner]
      have i2 : (entriesInner key1 ((x, v2) :: t2) c).1 =
          (if x ∈ (mapGet (ensureKey c x) key1).getD []
            then ([] : List ((K × K) × V)) else [((key1, x), v2)]) ++
          (entriesInner key1 t2
            (setRecord (setRecord (ensureKey c x) key1 x) x key1)).1 := by
        simp only [entriesInner]
      have s2 : (entriesInner key1 ((x, v2) :: t2) c).2 =
          (entriesInner key1 t2
            (setRecord (setRecord (ensureKey c x) key1 x) x key1)).2 := by
        simp only [entriesInner]
      obtain ⟨hlen, hstate⟩ :=
        ih t2 (setRecord (setRecord (ensureKey c x) key1 x) x key1) ht
      refine ⟨?_, ?_⟩
      · rw [i1, i2, List.length_append, List.length_append, hlen]
        by_cases hcond : x ∈ (mapGet (ensureKey c x) key1).getD [] <;>
          simp [hcond]
      · rw [s1, s2, hstate]

theorem entriesOuter_shape (l1 l2 : List (K × List (K × V)))
    (h : ShapeEq l1 l2) :
    ∀ c, (entriesOuter l1 c).length = (entriesOuter l2 c).length := by
  induction h with
  | nil =>
    intro c
    rfl
  | @cons p q t1 t2 hpq ht ih =>
    intro c
    obtain ⟨p1, p2⟩ := p
    obtain ⟨q1, q2⟩ := q
    obtain ⟨hk1, hk2⟩ := hpq
    dsimp at hk1 hk2
    subst hk1
    have o1 : entriesOuter ((p1, p2) :: t1) c =
        (entriesInner p1 p2 (ensureKey c p1)).1 ++
          entriesOuter t1 (entriesInner p1 p2 (ensureKey c p1)).2 := by
      simp only [entriesOuter]
    have o2 : entriesOuter ((p1, q2) :: t2) c =
        (entriesInner p1 q2 (ensureKey c p1)).1 ++
          entriesOuter t2 (entriesInner p1 q2 (ensureKey c p1)).2 := by
      simp only [entriesOuter]
    obtain ⟨hlen, hstate⟩ := entriesInner_shape p1 p2 q2 (ensureKey c p1) hk2
    rw [o1, o2, List.length_append, List.length_append, hlen, hstate, ih _]

theorem shapeEq_mapSet (l : List (K × List (K × V))) (k : K)
    (inn inn' : List (K × V)) (hg : mapGet l k = some inn)
    (hk : keysOf inn' = keysOf inn) : ShapeEq (mapSet l k inn') l := by
  induction l with
  | nil => simp [mapGet] at hg
  | cons p t ih =>
    obtain ⟨a, w⟩ := p
    by_cases ha : a = k
    · subst ha
      rw [show mapSet ((a, w) :: t) a inn' = (a, inn') :: t from by
        simp [mapSet]]
      have hw : inn = w := by
        simp [mapGet] at hg
        exact hg.symm
      exact List.Forall₂.cons ⟨rfl, by rw [hk, hw]⟩ (shapeEq_refl t)
    · rw [show mapSet ((a, w) :: t) k inn' = (a, w) :: mapSet t k inn' from by
        simp [mapSet, ha]]
      refine List.Forall₂.cons ⟨rfl, rfl⟩ (ih ?_)
      simpa [mapGet, ha] using hg

theorem mapGet_setPhase_self_some (prim : List (K × List (K × V)))
    (x y : K) (v : V) (inn : List (K × V)) (hg : mapGet prim x = some inn) :
    mapGet (setPhase prim x y v) x = some (mapSet inn y v) := by
  unfold setPhase
  rw [hg, mapGet_mapSet_self]

theorem shapeEq_setPhase (prim : List (K × List (K × V))) (x y : K) (v : V)
    (inn : List (K × V)) (hg : mapGet prim x = some inn)
    (hy : y ∈ keysOf inn) : ShapeEq (setPhase prim x y v) prim := by
  unfold setPhase
  rw [hg]
  exact shapeEq_mapSet prim x inn (mapSet inn y v) hg
    (keysOf_mapSet_of_mem inn y v hy)

theorem count_eq_entries_length (m : ReversibleKeyMap K V) :
    m.count = m.entries.length := by
  unfold ReversibleKeyMap.count ReversibleKeyMap.values
  rw [List.length_map]

/-! ### The claims -/

/-- C1: the spec states that no public operation ever throws, explicitly
including a key paired with itself, with absence always reported through
the absent indicator.  The code violates this: on the reachable state
built by `set(1, 1, 5)` from a fresh map, `delete(1, 1)` empties key 1's
secondary map, removes the top-level entry, then dereferences
`this.map.get(1) === undefined` and throws a `TypeError`, modelled by
`none`. -/
theorem spec_c1_delete_self_pair_throws :
    Reachable ((ReversibleKeyMap.empty : ReversibleKeyMap Nat Nat).set 1 1 5) ∧
    ((ReversibleKeyMap.empty : ReversibleKeyMap Nat Nat).set 1 1 5).delete 1 1
      = none :=
  ⟨Reachable.set 1 1 5 Reachable.empty, rfl⟩

/-- C2 counterexample: on the reachable state holding the six pairs of
the complete graph over keys {1, 2, 3, 4}, `count` is 6 while `size` is
4, refuting the claimed bound `count ≤ size`. -/
theorem spec_c2_counterexample :
    Reachable mK4 ∧ mK4.count = 6 ∧ mK4.size = 4 ∧
      ¬ (mK4.count ≤ mK4.size) :=
  ⟨Reachable.set 3 4 0 (Reachable.set 2 4 0 (Reachable.set 2 3 0
      (Reachable.set 1 4 0 (Reachable.set 1 3 0
        (Reachable.set 1 2 0 Reachable.empty))))),
    rfl, rfl, by decide⟩

/-- C2 amended: for every state, `count` equals the number of items
yielded by fully draining `entries()`; the claimed bound
`count ≤ size` does not hold (see the counterexample). -/
theorem spec_c2_count_eq_entries (m : ReversibleKeyMap K V) :
    m.count = m.entries.length :=
  count_eq_entries_length m

/-- C3: in every reachable state the primary index is symmetric —
whenever it contains `a → (b → v)` it also contains `b → (a → v)` — and
consequently `get a b` and `get b a` return identical results for all
keys. -/
theorem spec_c3_symmetry (m : ReversibleKeyMap K V) (h : Reachable m) :
    (∀ a b v inn, mapGet m.map a = some inn → mapGet inn b = some v →
      ∃ inn2, mapGet m.map b = some inn2 ∧ mapGet inn2 a = some v) ∧
    (∀ a b, m.get a b = m.get b a) := by
  obtain ⟨hnd, hinn, hsym, hne⟩ := reachable_inv m h
  refine ⟨?_, hsym⟩
  intro a b v inn hga hgb
  have h1 : m.get a b = some v := by
    unfold ReversibleKeyMap.get getIn
    rw [hga]
    exact hgb
  rw [hsym a b] at h1
  unfold ReversibleKeyMap.get getIn at h1
  cases hgb2 : mapGet m.map b with
  | none => rw [hgb2] at h1; cases h1
  | some inn2 =>
    rw [hgb2] at h1
    exact ⟨inn2, rfl, h1⟩

theorem spec_c3_witness :
    ((ReversibleKeyMap.empty : ReversibleKeyMap Nat Nat).set 1 2 5).get 1 2 =
      ((ReversibleKeyMap.empty : ReversibleKeyMap Nat Nat).set 1 2 5).get 2 1 :=
  (spec_c3_symmetry _ (Reachable.set 1 2 5 Reachable.empty)).2 1 2

/-- C4: in every reachable state a key is a top-level entry of the
primary index exactly when its secondary mapping is non-empty, and
deleting the last pair touching `k1` (when the `delete` call completes)
leaves `has k1 = false`. -/
theorem spec_c4_no_orphan (m : ReversibleKeyMap K V) (h : Reachable m) :
    (∀ k, m.has k = true ↔ ∃ inn, m.getAllFrom k = some inn ∧ inn ≠ []) ∧
    (∀ k1 k2 v m', m.getAllFrom k1 = some [(k2, v)] →
      m.delete k1 k2 = some m' → m'.has k1 = false) := by
  have hI := reachable_inv m h
  exact ⟨fun k => has_iff_nonempty_inner m hI k,
    fun k1 k2 v m' hg hd => delete_last_pair m m' k1 k2 v hI hg hd⟩

theorem spec_c4_witness :
    (ReversibleKeyMap.mk ([] : List (Nat × List (Nat × Nat)))).has 1 =
      false :=
  (spec_c4_no_orphan _ (Reachable.set 1 2 5 Reachable.empty)).2 1 2 5
    (ReversibleKeyMap.mk []) rfl rfl

/-- C5: in every reachable state, `entries()` yields each stored
unordered pair exactly once (and an absent pair never), and every
yielded item carries the stored value of its pair. -/
theorem spec_c5_dedup (m : ReversibleKeyMap K V) (h : Reachable m) :
    (∀ a b, m.entries.countP (pairMatch a b) =
      if m.hasCouple a b = true then 1 else 0) ∧
    (∀ e ∈ m.entries, m.get e.1.1 e.1.2 = some e.2) := by
  have hI := reachable_inv m h
  exact ⟨fun a b => entries_countP m hI a b, entries_sound m hI⟩

theorem spec_c5_witness :
    ((((ReversibleKeyMap.empty : ReversibleKeyMap Nat Nat).set 1 2 10).set
        3 4 20).entries.countP (pairMatch 1 2) = 1) ∧
    ((((ReversibleKeyMap.empty : ReversibleKeyMap Nat Nat).set 1 2 10).set
        3 4 20).entries.length = 2) := by
  constructor
  · have h := (spec_c5_dedup _
      (Reachable.set 3 4 20 (Reachable.set 1 2 10 Reachable.empty))).1 1 2
    have hc : (((ReversibleKeyMap.empty : ReversibleKeyMap Nat Nat).set
        1 2 10).set 3 4 20).hasCouple 1 2 = true := rfl
    rw [hc] at h
    simpa using h
  · rfl

/-- C6: the spec states that `deleteAllFrom(k)` always completes and
afterwards `has k` is false and no yielded pair contains `k`.  The code
violates the completion part: on the reachable state built by
`set(1, 1, 5)`, `deleteAllFrom(1)` reaches `delete(1, 1)` which throws a
`TypeError` (modelled by `none`), so the call never finishes. -/
theorem spec_c6_deleteAllFrom_self_pair_throws :
    Reachable ((ReversibleKeyMap.empty : ReversibleKeyMap Nat Nat).set 1 1 5) ∧
    ((ReversibleKeyMap.empty : ReversibleKeyMap Nat Nat).set 1 1 5).deleteAllFrom 1
      = none :=
  ⟨Reachable.set 1 1 5 Reachable.empty, rfl⟩

/-- C7: immediately after `set k1 k2 v`, reading the pair in either key
order returns `v`, from any starting state. -/
theorem spec_c7_set_get_roundtrip (m : ReversibleKeyMap K V) (k1 k2 : K)
    (v : V) :
    (m.set k1 k2 v).get k1 k2 = some v ∧
    (m.set k1 k2 v).get k2 k1 = some v := by
  constructor
  · rw [get_set, if_pos (Or.inl ⟨rfl, rfl⟩)]
  · rw [get_set, if_pos (Or.inr ⟨rfl, rfl⟩)]

/-- C8: re-setting the same unordered pair with the keys reversed
overwrites the value in both reading orders, leaves the set of stored
pairs unchanged, and keeps a single logical pair (the entry count does
not grow). -/
theorem spec_c8_reset_overwrite (m : ReversibleKeyMap K V) (k1 k2 : K)
    (v1 v2 : V) :
    ((m.set k1 k2 v1).set k2 k1 v2).get k1 k2 = some v2 ∧
    ((m.set k1 k2 v1).set k2 k1 v2).get k2 k1 = some v2 ∧
    (∀ a b, ((m.set k1 k2 v1).set k2 k1 v2).hasCouple a b =
      (m.set k1 k2 v1).hasCouple a b) ∧
    ((m.set k1 k2 v1).set k2 k1 v2).count = (m.set k1 k2 v1).count := by
  have hshape : ShapeEq ((m.set k1 k2 v1).set k2 k1 v2).map
      (m.set k1 k2 v1).map := by
    obtain ⟨innB, hgB, hmemB⟩ := hasCouple_elim (m.set k1 k2 v1) k2 k1 (by
      rw [hasCouple_eq_isSome_get, get_set, if_pos (Or.inr ⟨rfl, rfl⟩)]
      rfl)
    have hA : ShapeEq (setPhase (m.set k1 k2 v1).map k2 k1 v2)
        (m.set k1 k2 v1).map :=
      shapeEq_setPhase _ k2 k1 v2 innB hgB hmemB
    obtain ⟨innA, hgA, hmemA⟩ := hasCouple_elim (m.set k1 k2 v1) k1 k2 (by
      rw [hasCouple_eq_isSome_get, get_set, if_pos (Or.inl ⟨rfl, rfl⟩)]
      rfl)
    by_cases h12 : k1 = k2
    · subst h12
      have hg2 : mapGet (setPhase (m.set k1 k1 v1).map k1 k1 v2) k1 =
          some (mapSet innA k1 v2) :=
        mapGet_setPhase_self_some _ _ _ _ _ hgA
      have hB : ShapeEq
          (setPhase (setPhase (m.set k1 k1 v1).map k1 k1 v2) k1 k1 v2)
          (setPhase (m.set k1 k1 v1).map k1 k1 v2) :=
        shapeEq_setPhase _ k1 k1 v2 _ hg2 (by
          rw [keysOf_mapSet_of_mem innA k1 v2 hmemA]
          exact hmemA)
      exact shapeEq_trans _ _ _ hB hA
    · have hg2 : mapGet (setPhase (m.set k1 k2 v1).map k2 k1 v2) k1 =
          mapGet (m.set k1 k2 v1).map k1 :=
        mapGet_setPhase_ne _ _ _ _ _ h12
      have hB : ShapeEq
          (setPhase (setPhase (m.set k1 k2 v1).map k2 k1 v2) k1 k2 v2)
          (setPhase (m.set k1 k2 v1).map k2 k1 v2) :=
        shapeEq_setPhase _ k1 k2 v2 innA (by rw [hg2]; exact hgA) hmemA
      exact shapeEq_trans _ _ _ hB hA
  refine ⟨?_, ?_, ?_, ?_⟩
  · rw [get_set, if_pos (Or.inr ⟨rfl, rfl⟩)]
  · rw [get_set, if_pos (Or.inl ⟨rfl, rfl⟩)]
  · exact shape_hasCouple _ _ hshape
  · rw [count_eq_entries_length, count_eq_entries_length]
    exact entriesOuter_shape _ _ hshape []

/-- C9: `size` counts top-level keys, not pairs: an empty map has size
0, one `set` with two distinct keys gives size 2, a self-pair gives size
1, and in every reachable state `size` is the number of (distinct)
top-level keys. -/
theorem spec_c9_size :
    ((ReversibleKeyMap.empty : ReversibleKeyMap K V).size = 0) ∧
    (∀ (a b : K) (v : V), a ≠ b →
      ((ReversibleKeyMap.empty : ReversibleKeyMap K V).set a b v).size = 2) ∧
    (∀ (a : K) (v : V),
      ((ReversibleKeyMap.empty : ReversibleKeyMap K V).set a a v).size = 1) ∧
    (∀ m : ReversibleKeyMap K V, Reachable m →
      m.size = m.keys.length ∧ m.keys.Nodup) := by
  refine ⟨rfl, ?_, ?_, ?_⟩
  · intro a b v hab
    show (setPhase (setPhase ([] : List (K × List (K × V))) a b v)
      b a v).length = 2
    unfold setPhase
    simp [mapGet, mapSet, hab, Ne.symm hab]
  · intro a v
    show (setPhase (setPhase ([] : List (K × List (K × V))) a a v)
      a a v).length = 1
    unfold setPhase
    simp [mapGet, mapSet]
  · intro m hm
    constructor
    · show m.map.length = (keysOf m.map).length
      unfold keysOf
      rw [List.length_map]
    · exact (reachable_inv m hm).1

theorem spec_c9_witness :
    ((ReversibleKeyMap.empty : ReversibleKeyMap Nat Nat).set 0 1 7).size = 2 ∧
    ((ReversibleKeyMap.empty : ReversibleKeyMap Nat Nat).set 0 0 7).size = 1 :=
  ⟨(@spec_c9_size Nat Nat _).2.1 0 1 7 (by decide),
    (@spec_c9_size Nat Nat _).2.2.1 0 7⟩

/-- C10: frame property — `set k1 k2 v` and a completed `delete k1 k2`
leave the value of every unordered pair other than `{k1, k2}`
unchanged, in every reachable state. -/
theorem spec_c10_frame (m : ReversibleKeyMap K V) (hm : Reachable m)
    (k1 k2 c d : K) (v : V)
    (hdist : ¬((c = k1 ∧ d = k2) ∨ (c = k2 ∧ d = k1))) :
    (m.set k1 k2 v).get c d = m.get c d ∧
    (∀ m', m.delete k1 k2 = some m' → m'.get c d = m.get c d) := by
  constructor
  · rw [get_set, if_neg hdist]
  · intro m' hd
    rw [get_delete m m' k1 k2 (reachable_inv m hm) hd c d, if_neg hdist]

theorem spec_c10_witness :
    (((ReversibleKeyMap.empty : ReversibleKeyMap Nat Nat).set 1 2 5).set
        3 4 7).get 1 2 =
      ((ReversibleKeyMap.empty : ReversibleKeyMap Nat Nat).set 1 2 5).get 1 2 :=
  (spec_c10_frame _ (Reachable.set 1 2 5 Reachable.empty) 3 4 1 2 7
    (by decide)).1

end RevKeyMap
